import Mathlib

/-!
Verification of the scenario normalization pipeline of `src/services/ai.ts`
(`generateScenario`, post-processing section, lines 384-463).

The pipeline works on JavaScript strings; we embed a string as `List Char`.
JS regular expressions are embedded as explicit scanning functions:

* `/___BLANK_(\d+)___/g`   — `matchAt` / `parseF` (the `regex.exec` loop
  building `foundBlanks`, keeping each match's index and digit text);
* `` new RegExp(`At\\s+Blank\\s+${d}`, 'gi') `` — `matchHdrAt` / `replaceHdrF`
  (the per-step instruction rewrite);
* `/At\s+Blank\s+(\d+)/gi` with a callback — `matchCtxAt` / `replaceCtxF`
  (the context rewrite).

`\d` is `[0-9]` (`Char.isDigit`); `\s` is embedded as the core JS whitespace
set (`isWs`); the `i` flag folds ASCII letter case (`ciEq`).  Greedy `\d+` /
`\s+` followed by a character that can never belong to the class need no
backtracking, so they are embedded as maximal runs.  `String.prototype.replace`
emits the replacement and resumes scanning after the match (the replacement
text is never rescanned), which is exactly what the recursive `replace*F`
functions do.  Scanning functions whose recursion consumes a dynamic number of
characters take an explicit fuel argument, always called with fuel ≥ length,
so that they stay structurally recursive (kernel-computable); fuel-stability
lemmas are proved below.

JS `parseInt` on the digit capture is `digitsVal`; template-literal rendering
`${n}` of a nonnegative integer is `natStr`.
-/

namespace AiLb

abbrev Str := List Char

/-- Decimal value of a digit string, as computed by `parseInt` on a string of
ASCII digits (the capture groups here always match `[0-9]+`). -/
def digitsVal (ds : Str) : Nat := ds.foldl (fun a c => 10 * a + (c.toNat - 48)) 0

/-- Fueled decimal rendering of a natural number. -/
def natStrF : Nat → Nat → Str
  | 0, _ => []
  | f + 1, n => if n < 10 then [Nat.digitChar n] else natStrF f (n / 10) ++ [Nat.digitChar (n % 10)]

/-- Decimal rendering of a natural number: the embedding of JS `${n}` /
`String(n)` for a nonnegative integer. -/
def natStr (n : Nat) : Str := natStrF (n + 1) n

/-- Core JS `\s` characters (the pipeline's inputs are ASCII; the Unicode
whitespace code points never collide with the letters and digits the
patterns otherwise mention, so restricting `\s` to the ASCII set is faithful
on every string the other character classes can interact with). -/
def isWs (c : Char) : Bool :=
  c == ' ' || c == '\t' || c == '\n' || c == '\r' || c == '\x0b' || c == '\x0c'

/-- ASCII lower-casing, for the regex `i` flag. -/
def lcChar (c : Char) : Char :=
  if 'A' ≤ c ∧ c ≤ 'Z' then Char.ofNat (c.toNat + 32) else c

/-- Case-insensitive character comparison (regex `i` flag). -/
def ciEq (a b : Char) : Bool := lcChar a == lcChar b

/-- Strip an exact literal from the front of a string. -/
def dropLit : Str → Str → Option Str
  | [], s => some s
  | _ :: _, [] => none
  | p :: ps, c :: cs => if c = p then dropLit ps cs else none

/-- Strip a literal case-insensitively from the front of a string. -/
def ciLitStrip : Str → Str → Option Str
  | [], s => some s
  | _ :: _, [] => none
  | p :: ps, c :: cs => if ciEq c p then ciLitStrip ps cs else none

/-- Maximal run of digits at the front: `(run, rest)`; embeds greedy `(\d+)`
followed by a non-digit requirement. -/
def digitSpan : Str → Str × Str
  | [] => ([], [])
  | c :: cs =>
    if c.isDigit then
      let p := digitSpan cs
      (c :: p.1, p.2)
    else ([], c :: cs)

/-- Rest of the string after the maximal whitespace run. -/
def wsSpanRest : Str → Str
  | [] => []
  | c :: cs => if isWs c then wsSpanRest cs else c :: cs

/-- Embeds greedy `\s+`: at least one whitespace character, then the maximal
run (the following pattern element is never a whitespace character). -/
def wsPlus : Str → Option Str
  | [] => none
  | c :: cs => if isWs c then some (wsSpanRest cs) else none

-- characters of the marker literal `___BLANK_<digits>___`
def blankLit : Str := ['_', '_', '_', 'B', 'L', 'A', 'N', 'K', '_']

def underTriple : Str := ['_', '_', '_']

/-- The raw text of a marker with digit text `ds`. -/
def mkMarker (ds : Str) : Str := blankLit ++ ds ++ underTriple

/-- Well-formed digit text of a marker. -/
def dsOK (ds : Str) : Prop := ds ≠ [] ∧ ∀ c ∈ ds, c.isDigit

/-- One attempted match of `/___BLANK_(\d+)___/` at the start of `s`:
`some (digits, rest-after-match)` on success. -/
def matchAt (s : Str) : Option (Str × Str) :=
  (dropLit blankLit s).bind fun r =>
    if (digitSpan r).1 = [] then none
    else (dropLit underTriple (digitSpan r).2).map fun rest => ((digitSpan r).1, rest)

/-! ### Basic lemmas about the matching primitives -/

theorem dropLit_sound : ∀ p s r, dropLit p s = some r → s = p ++ r
  | [], s, r, h => by simpa [dropLit] using h
  | p :: ps, [], r, h => by simp [dropLit] at h
  | p :: ps, c :: cs, r, h => by
    by_cases hc : c = p
    · simp [dropLit, hc] at h
      simpa [hc] using congrArg (List.cons p) (dropLit_sound ps cs r h)
    · simp [dropLit, hc] at h

theorem dropLit_self : ∀ p s, dropLit p (p ++ s) = some s
  | [], s => rfl
  | p :: ps, s => by simp [dropLit, dropLit_self ps s]

theorem ciLitStrip_sound : ∀ p s r, ciLitStrip p s = some r → ∃ t, s = t ++ r ∧ t.length = p.length
  | [], s, r, h => ⟨[], by simpa [ciLitStrip] using h, rfl⟩
  | p :: ps, [], r, h => by simp [ciLitStrip] at h
  | p :: ps, c :: cs, r, h => by
    by_cases hc : ciEq c p
    · simp [ciLitStrip, hc] at h
      obtain ⟨t, ht, hl⟩ := ciLitStrip_sound ps cs r h
      exact ⟨c :: t, by simp [ht], by simp [hl]⟩
    · simp [ciLitStrip, hc] at h

theorem wsSpanRest_sound : ∀ s, ∃ t, s = t ++ wsSpanRest s
  | [] => ⟨[], rfl⟩
  | c :: cs => by
    have he : wsSpanRest (c :: cs) = if isWs c then wsSpanRest cs else c :: cs := rfl
    by_cases hc : isWs c
    · obtain ⟨t, ht⟩ := wsSpanRest_sound cs
      refine ⟨c :: t, ?_⟩
      rw [he, if_pos hc, List.cons_append, ← ht]
    · refine ⟨[], ?_⟩
      rw [he, if_neg hc, List.nil_append]

theorem wsPlus_sound : ∀ s r, wsPlus s = some r → ∃ t, s = t ++ r ∧ t ≠ []
  | [], r, h => Option.noConfusion h
  | c :: cs, r, h => by
    have he : wsPlus (c :: cs) = if isWs c then some (wsSpanRest cs) else none := rfl
    rw [he] at h
    by_cases hc : isWs c
    · rw [if_pos hc, Option.some_inj] at h
      obtain ⟨t, ht⟩ := wsSpanRest_sound cs
      refine ⟨c :: t, ?_, by simp⟩
      rw [← h, List.cons_append, ← ht]
    · rw [if_neg hc] at h
      exact absurd h (by simp)

theorem digitSpan_sound : ∀ s, s = (digitSpan s).1 ++ (digitSpan s).2
    ∧ (∀ c ∈ (digitSpan s).1, c.isDigit)
    ∧ (∀ c t, (digitSpan s).2 = c :: t → c.isDigit = false)
  | [] => by simp [digitSpan]
  | c :: cs => by
    obtain ⟨h1, h2, h3⟩ := digitSpan_sound cs
    by_cases hc : c.isDigit
    · refine ⟨by simpa [digitSpan, hc] using h1, ?_, ?_⟩
      · intro x hx
        simp [digitSpan, hc] at hx
        rcases hx with hx | hx
        · exact hx ▸ hc
        · exact h2 x hx
      · intro x t hx
        exact h3 x t (by simpa [digitSpan, hc] using hx)
    · refine ⟨by simp [digitSpan, hc], by simp [digitSpan, hc], ?_⟩
      intro x t hx
      simp [digitSpan, hc] at hx
      simp [hx.1 ▸ (by simpa using hc : c.isDigit = false)]

theorem digitSpan_exact (d r : Str) (hd : ∀ c ∈ d, c.isDigit)
    (hr : ∀ c t, r = c :: t → c.isDigit = false) : digitSpan (d ++ r) = (d, r) := by
  induction d with
  | nil =>
    cases r with
    | nil => simp [digitSpan]
    | cons c t => simp [digitSpan, hr c t rfl]
  | cons c d ih =>
    have hc : c.isDigit := hd c (by simp)
    have := ih (fun x hx => hd x (by simp [hx]))
    simp [digitSpan, hc, this]

theorem matchAt_sound (s ds rest : Str) (h : matchAt s = some (ds, rest)) :
    s = mkMarker ds ++ rest ∧ dsOK ds := by
  unfold matchAt at h
  rw [Option.bind_eq_some] at h
  obtain ⟨r, hb, h⟩ := h
  rcases hp : digitSpan r with ⟨d1, d2⟩
  rw [hp] at h
  obtain ⟨hr1, hr2, _⟩ := digitSpan_sound r
  rw [hp] at hr1 hr2
  by_cases hne : d1 = []
  · rw [if_pos hne] at h; exact Option.noConfusion h
  · rw [if_neg hne, Option.map_eq_some'] at h
    obtain ⟨rest2, hu, h⟩ := h
    have hds : d1 = ds := congrArg Prod.fst h
    have hrest : rest2 = rest := congrArg Prod.snd h
    have hs := dropLit_sound _ _ _ hb
    have hu2 := dropLit_sound _ _ _ hu
    subst hds hrest
    refine ⟨?_, hne, by simpa using hr2⟩
    rw [mkMarker, hs, hr1, hu2, List.append_assoc]
    simp [List.append_assoc]

theorem underTriple_head (c : Char) (t : Str) (hct : underTriple ++ rest = c :: t) :
    c.isDigit = false := by
  have : c = '_' := by
    have := congrArg List.head? hct
    simpa [underTriple] using this.symm
  simp [this]

theorem matchAt_complete (ds rest : Str) (h : dsOK ds) :
    matchAt (mkMarker ds ++ rest) = some (ds, rest) := by
  obtain ⟨hne, hdig⟩ := h
  have h1 : mkMarker ds ++ rest = blankLit ++ (ds ++ (underTriple ++ rest)) := by
    rw [mkMarker]
    simp [List.append_assoc]
  have h2 : digitSpan (ds ++ (underTriple ++ rest)) = (ds, underTriple ++ rest) :=
    digitSpan_exact _ _ hdig (fun c t hct => underTriple_head c t hct)
  unfold matchAt
  rw [h1, dropLit_self, Option.some_bind, h2]
  simp only [hne, if_false, ite_false]
  rw [dropLit_self]
  rfl

/-! ### Decimal rendering: `natStr` -/

theorem digitsVal_append_singleton (xs : Str) (c : Char) :
    digitsVal (xs ++ [c]) = 10 * digitsVal xs + (c.toNat - 48) := by
  unfold digitsVal
  rw [List.foldl_append]
  rfl

theorem digitChar_isDigit : ∀ m, m < 10 → (Nat.digitChar m).isDigit := by decide

theorem digitChar_val : ∀ m, m < 10 → (Nat.digitChar m).toNat - 48 = m := by decide

theorem digitsVal_singleton (c : Char) : digitsVal [c] = c.toNat - 48 := by
  unfold digitsVal
  simp

theorem natStrF_spec : ∀ f n, n < 10 ^ f →
    (∀ c ∈ natStrF f n, c.isDigit) ∧ digitsVal (natStrF f n) = n
  | 0, n, h => by
    have : n = 0 := by omega
    subst this
    exact ⟨by simp [natStrF], by simp [natStrF, digitsVal]⟩
  | f + 1, n, h => by
    by_cases hn : n < 10
    · have he : natStrF (f + 1) n = [Nat.digitChar n] := by simp [natStrF, hn]
      rw [he]
      refine ⟨?_, ?_⟩
      · intro c hc
        simp at hc
        exact hc ▸ digitChar_isDigit n hn
      · rw [digitsVal_singleton, digitChar_val n hn]
    · have hdiv : n / 10 < 10 ^ f := by
        have h10 : 10 ^ (f + 1) = 10 ^ f * 10 := by ring
        omega
      obtain ⟨ih1, ih2⟩ := natStrF_spec f (n / 10) hdiv
      have hmod : n % 10 < 10 := Nat.mod_lt _ (by omega)
      have he : natStrF (f + 1) n = natStrF f (n / 10) ++ [Nat.digitChar (n % 10)] := by
        simp [natStrF, hn]
      rw [he]
      refine ⟨?_, ?_⟩
      · intro c hc
        simp at hc
        rcases hc with hc | hc
        · exact ih1 c hc
        · exact hc ▸ digitChar_isDigit _ hmod
      · rw [digitsVal_append_singleton, ih2, digitChar_val _ hmod]
        omega

theorem natStr_digits (n : Nat) : ∀ c ∈ natStr n, c.isDigit :=
  (natStrF_spec (n + 1) n (Nat.lt_of_lt_of_le (Nat.lt_pow_self (by omega) n)
    (Nat.pow_le_pow_right (by omega) (by omega)))).1

theorem digitsVal_natStr (n : Nat) : digitsVal (natStr n) = n :=
  (natStrF_spec (n + 1) n (Nat.lt_of_lt_of_le (Nat.lt_pow_self (by omega) n)
    (Nat.pow_le_pow_right (by omega) (by omega)))).2

theorem natStr_ne_nil (n : Nat) : natStr n ≠ [] := by
  unfold natStr natStrF
  by_cases hn : n < 10
  · simp [hn]
  · simp [hn]

theorem natStr_dsOK (n : Nat) : dsOK (natStr n) := ⟨natStr_ne_nil n, natStr_digits n⟩

/-! ### The template scanner

`foundBlanks` in the source is built by the `regex.exec` loop: each match
records `originalId` (the parsed digits), `index` (the match offset) and the
matched text.  We embed the scan as `parseF`, which returns the full
decomposition of the template: a list of `(gap, occurrence)` pieces — the gap
is the text between the previous match end and this match — plus the final
gap after the last match.  `regex.exec` with the `g` flag returns successive
non-overlapping leftmost matches, which is exactly this scan; the source later
reconstructs the gaps via `substring(lastIdx, b.index)`, which coincides with
the gap segments recorded here because match offsets are strictly increasing
(`parseF_idx_lt` below). -/

structure Occ where
  idx : Nat
  ds : Str
deriving DecidableEq, Repr

/-- Prepend a skipped character to a scan result. -/
def consStep (c : Char) : List (Str × Occ) × Str → List (Str × Occ) × Str
  | ([], fin) => ([], c :: fin)
  | ((seg, o) :: ps, fin) => ((c :: seg, o) :: ps, fin)

/-- Fueled scan for `/___BLANK_(\d+)___/g`: at each position try a match; on a
match record the occurrence and jump past it, otherwise move one character.
Fuel `≥ length` always suffices (`parseF_stable`). -/
def parseF : Nat → Str → Nat → List (Str × Occ) × Str
  | 0, s, _ => ([], s)
  | _ + 1, [], _ => ([], [])
  | f + 1, c :: cs, off =>
    match matchAt (c :: cs) with
    | some (ds, rest) =>
      (([], ⟨off, ds⟩) :: (parseF f rest (off + 12 + ds.length)).1,
       (parseF f rest (off + 12 + ds.length)).2)
    | none => consStep c (parseF f cs (off + 1))

/-- The scan of a template string (fuel instantiated at the length). -/
def parseTpl (s : Str) : List (Str × Occ) × Str := parseF s.length s 0

/-- Reassemble a decomposition into a string, substituting each occurrence's
digit text. -/
def weave : List (Str × Occ) → Str → Str
  | [], fin => fin
  | (seg, o) :: ps, fin => seg ++ mkMarker o.ds ++ weave ps fin

theorem mkMarker_length (ds : Str) : (mkMarker ds).length = 12 + ds.length := by
  simp [mkMarker, blankLit, underTriple]
  omega

theorem parseF_nil_any : ∀ f off, parseF f [] off = ([], [])
  | 0, _ => rfl
  | _ + 1, _ => rfl

theorem parseF_cons_match {f : Nat} {c : Char} {cs ds rest : Str} {off : Nat}
    (h : matchAt (c :: cs) = some (ds, rest)) :
    parseF (f + 1) (c :: cs) off =
      (([], ⟨off, ds⟩) :: (parseF f rest (off + 12 + ds.length)).1,
       (parseF f rest (off + 12 + ds.length)).2) := by
  simp only [parseF, h]

theorem parseF_cons_nomatch {f : Nat} {c : Char} {cs : Str} {off : Nat}
    (h : matchAt (c :: cs) = none) :
    parseF (f + 1) (c :: cs) off = consStep c (parseF f cs (off + 1)) := by
  simp only [parseF, h]

theorem weave_consStep (c : Char) (r : List (Str × Occ) × Str) :
    weave (consStep c r).1 (consStep c r).2 = c :: weave r.1 r.2 := by
  rcases r with ⟨ps, fin⟩
  cases ps with
  | nil => rfl
  | cons p ps => rcases p with ⟨seg, o⟩; rfl

/-- The scan decomposes its input: weaving the pieces back yields the input
string, for any fuel. -/
theorem parseF_recompose : ∀ f s off, weave (parseF f s off).1 (parseF f s off).2 = s
  | 0, s, off => rfl
  | _ + 1, [], off => rfl
  | f + 1, c :: cs, off => by
    cases hm : matchAt (c :: cs) with
    | some p =>
      rcases p with ⟨ds, rest⟩
      have hs := (matchAt_sound _ _ _ hm).1
      rw [parseF_cons_match hm]
      show ([] : Str) ++ mkMarker ds ++ weave _ _ = c :: cs
      rw [parseF_recompose f rest (off + 12 + ds.length)]
      rw [List.nil_append, ← hs]
    | none =>
      rw [parseF_cons_nomatch hm, weave_consStep]
      rw [parseF_recompose f cs (off + 1)]

/-- The scan result does not depend on the fuel, once the fuel covers the
string length. -/
theorem parseF_stable : ∀ f g s off, s.length ≤ f → s.length ≤ g →
    parseF f s off = parseF g s off
  | f, g, [], off, _, _ => by rw [parseF_nil_any, parseF_nil_any]
  | 0, g, c :: cs, off, hf, _ => by simp at hf
  | f + 1, 0, c :: cs, off, _, hg => by simp at hg
  | f + 1, g + 1, c :: cs, off, hf, hg => by
    cases hm : matchAt (c :: cs) with
    | some p =>
      rcases p with ⟨ds, rest⟩
      have hs := (matchAt_sound _ _ _ hm).1
      have hlen : rest.length + 12 + ds.length = cs.length + 1 := by
        have h2 := congrArg List.length hs
        rw [List.length_append, mkMarker_length] at h2
        simp only [List.length_cons] at h2
        omega
      simp only [List.length_cons] at hf hg
      rw [parseF_cons_match hm, parseF_cons_match hm,
        parseF_stable f g rest _ (by omega) (by omega)]
    | none =>
      simp only [List.length_cons] at hf hg
      rw [parseF_cons_nomatch hm, parseF_cons_nomatch hm,
        parseF_stable f g cs _ (by omega) (by omega)]

/-! ### Transfer of match failure across marker replacement

`parseF` skips a position only when no match starts there.  When the rebuild
replaces the upcoming marker's digits, a skipped position must stay
match-free.  The following lemma captures this: whether a match starts inside
`v` (with a marker-shaped continuation) depends only on `v` and the shared
marker prefix `___BLANK_`, not on the marker digits or anything after. -/

theorem digits_ne_blank_head (ds x y : Str) (hne : ds ≠ []) (hd : ∀ c ∈ ds, c.isDigit)
    (he : ds ++ x = blankLit ++ y) : False := by
  cases ds with
  | nil => exact hne rfl
  | cons c t =>
    have hc : c = '_' := by
      have := congrArg List.head? he
      simpa [blankLit] using this
    have hdig := hd c (by simp)
    rw [hc] at hdig
    exact absurd hdig (by decide)

theorem under_blank (r m : Str) (h : underTriple = r ++ m) :
    ∃ w, ∀ X : Str, r ++ (blankLit ++ X) = underTriple ++ (w ++ X) := by
  have h' : ('_' :: '_' :: '_' :: [] : Str) = r ++ m := h
  cases r with
  | nil => exact ⟨['B', 'L', 'A', 'N', 'K', '_'], fun X => rfl⟩
  | cons c1 r =>
    injection h' with h1 h'
    subst h1
    cases r with
    | nil => exact ⟨'_' :: ['B', 'L', 'A', 'N', 'K', '_'], fun X => rfl⟩
    | cons c2 r =>
      injection h' with h2 h'
      subst h2
      cases r with
      | nil => exact ⟨'_' :: '_' :: ['B', 'L', 'A', 'N', 'K', '_'], fun X => rfl⟩
      | cons c3 r =>
        injection h' with h3 h'
        subst h3
        cases r with
        | nil => exact ⟨blankLit, fun X => rfl⟩
        | cons c4 r => exact List.noConfusion h'

theorem blankLit_no_digit : ∀ k, k ≤ 9 → ∀ c, blankLit.get? k = some c →
    c.isDigit = false := by decide

theorem matchAt_none_transfer (v u uB a b : Str) (hv : v ≠ [])
    (h : matchAt (v ++ (mkMarker a ++ u)) = none) :
    matchAt (v ++ (mkMarker b ++ uB)) = none := by
  cases hm : matchAt (v ++ (mkMarker b ++ uB)) with
  | none => rfl
  | some p =>
    exfalso
    rcases p with ⟨ds, rest⟩
    obtain ⟨he, hdne, hdig⟩ := matchAt_sound _ _ _ hm
    -- he : v ++ (mkMarker b ++ uB) = mkMarker ds ++ rest
    rcases List.append_eq_append_iff.mp he with ⟨m, hm1, hm2⟩ | ⟨m, hm1, hm2⟩
    · -- v is a prefix of the matched marker: mkMarker ds = v ++ m
      have hm1' : blankLit ++ (ds ++ underTriple) = v ++ m := by
        rw [← hm1, mkMarker, List.append_assoc]
      rcases List.append_eq_append_iff.mp hm1' with ⟨t, ht1, ht2⟩ | ⟨t, ht1, ht2⟩
      · -- v = blankLit ++ t and ds ++ underTriple = t ++ m
        rcases List.append_eq_append_iff.mp ht2 with ⟨r, hr1, hr2⟩ | ⟨r, hr1, hr2⟩
        · -- t = ds ++ r with underTriple = r ++ m: a marker starts at v
          obtain ⟨w, hw⟩ := under_blank r m hr2
          have hcon : v ++ (mkMarker a ++ u) =
              mkMarker ds ++ (w ++ (a ++ (underTriple ++ u))) := by
            rw [ht1, hr1, mkMarker, mkMarker]
            simp only [List.append_assoc]
            rw [hw (a ++ (underTriple ++ u))]
          rw [hcon, matchAt_complete ds _ ⟨hdne, hdig⟩] at h
          exact Option.noConfusion h
        · -- ds = t ++ r and m = r ++ underTriple
          cases r with
          | cons c r2 =>
            -- a digit of ds would have to start the `___BLANK_` of the next marker
            have h7 : (c :: r2) ++ (underTriple ++ rest) = blankLit ++ (b ++ (underTriple ++ uB)) := by
              have h6 : (m ++ rest : Str) = mkMarker b ++ uB := hm2.symm
              rw [hr2] at h6
              simpa [mkMarker, List.append_assoc] using h6
            exact digits_ne_blank_head (c :: r2) _ _ (by simp)
              (fun x hx => hdig x (by rw [hr1]; exact List.mem_append_right t hx)) h7
          | nil =>
            -- ds = t: v = blankLit ++ ds, and a marker starts at v
            have hds : ds = t := by simpa using hr1
            have hbl : ∀ X : Str, blankLit ++ X =
                underTriple ++ (['B', 'L', 'A', 'N', 'K', '_'] ++ X) := fun X => rfl
            have hcon : v ++ (mkMarker a ++ u) =
                mkMarker ds ++ (['B', 'L', 'A', 'N', 'K', '_'] ++ (a ++ (underTriple ++ u))) := by
              rw [ht1, ← hds, mkMarker, mkMarker]
              simp only [List.append_assoc]
              rw [hbl (a ++ (underTriple ++ u))]
            rw [hcon, matchAt_complete ds _ ⟨hdne, hdig⟩] at h
            exact Option.noConfusion h
      · -- blankLit = v ++ t: `v` reaches at most through `___BLANK_`, so
        -- character 9 of the whole string lies in the shared marker prefix and
        -- cannot be the first digit of `ds`
        have hk1 : 0 < v.length := List.length_pos.mpr hv
        have hk9 : v.length ≤ 9 := by
          have h5 := congrArg List.length ht1
          simp [blankLit] at h5
          omega
        rcases ds with _ | ⟨d0, ds2⟩
        · exact hdne rfl
        have hd0 : d0.isDigit := hdig d0 (by simp)
        have h9a : (mkMarker (d0 :: ds2) ++ rest).get? 9 = some d0 := by
          rw [mkMarker, List.append_assoc, List.append_assoc]
          rw [List.get?_append_right (by simp [blankLit])]
          simp [blankLit]
        have h9b : (v ++ (mkMarker b ++ uB)).get? 9 =
            blankLit.get? (9 - v.length) := by
          rw [List.get?_append_right (by omega)]
          rw [mkMarker]
          simp only [List.append_assoc]
          rw [List.get?_append
            (by have h4 : blankLit.length = 9 := rfl; omega)]
        have hcontra : blankLit.get? (9 - v.length) = some d0 := by
          rw [← h9b, he, h9a]
        have h8 := blankLit_no_digit _ (by omega) d0 hcontra
        rw [hd0] at h8
        exact Bool.noConfusion h8
    · -- the whole marker fits inside v: a marker starts at v in both strings
      have hcon : v ++ (mkMarker a ++ u) = mkMarker ds ++ (m ++ (mkMarker a ++ u)) := by
        rw [hm1, List.append_assoc]
      rw [hcon, matchAt_complete ds _ ⟨hdne, hdig⟩] at h
      exact Option.noConfusion h

/-! ### Rescanning a rebuilt template -/

/-- Replace the occurrences' digit texts by `qs` and recompute each match
offset starting from `off`. -/
def reOccs : List (Str × Occ) → List Str → Nat → List (Str × Occ)
  | (seg, _) :: ps, q :: qs, off =>
    (seg, ⟨off + seg.length, q⟩) :: reOccs ps qs (off + seg.length + 12 + q.length)
  | _, _, _ => []

theorem parseF_start_match {f : Nat} {s ds rest : Str} {off : Nat}
    (h : matchAt s = some (ds, rest)) (hf : s.length ≤ f) :
    parseF f s off =
      (([], ⟨off, ds⟩) :: (parseF rest.length rest (off + 12 + ds.length)).1,
       (parseF rest.length rest (off + 12 + ds.length)).2) := by
  obtain ⟨he, _⟩ := matchAt_sound _ _ _ h
  have hlen : s.length = 12 + ds.length + rest.length := by
    rw [he, List.length_append, mkMarker_length]
  cases f with
  | zero => exfalso; omega
  | succ f =>
    cases s with
    | nil => exfalso; simp only [List.length_nil] at hlen; omega
    | cons c cs =>
      rw [parseF_cons_match h,
        parseF_stable f rest.length rest _ (by simp at hlen hf; omega) (le_refl _)]

theorem parseF_start_nomatch {f : Nat} {c : Char} {cs : Str} {off : Nat}
    (h : matchAt (c :: cs) = none) (hf : (c :: cs).length ≤ f) :
    parseF f (c :: cs) off = consStep c (parseF cs.length cs (off + 1)) := by
  cases f with
  | zero => exfalso; simp at hf
  | succ f =>
    rw [parseF_cons_nomatch h,
      parseF_stable f cs.length cs _ (by simp at hf; omega) (le_refl _)]

/-- Parsing the reweaved string (the rebuilt template) finds exactly the
substituted occurrences, with the same gaps and final segment.  This is the
heart of the renumbering invariant: the rebuild changes only marker digit
texts, and the gaps recorded by the original scan can never give rise to a
match, whatever marker follows them (`matchAt_none_transfer`). -/
theorem parse_reweave : ∀ f s off qs off',
    s.length ≤ f →
    qs.length = (parseF f s off).1.length →
    (∀ q ∈ qs, dsOK q) →
    parseF (weave (reOccs (parseF f s off).1 qs off') (parseF f s off).2).length
        (weave (reOccs (parseF f s off).1 qs off') (parseF f s off).2) off'
      = (reOccs (parseF f s off).1 qs off', (parseF f s off).2)
  | f, [], off, qs, off', hf, hq, hok => by
    rw [parseF_nil_any] at hq ⊢
    simp at hq
    subst hq
    rw [show reOccs [] [] off' = [] from rfl]
    exact parseF_nil_any _ _
  | 0, c :: cs, off, qs, off', hf, hq, hok => by simp at hf
  | f + 1, c :: cs, off, qs, off', hf, hq, hok => by
    cases hm : matchAt (c :: cs) with
    | some p =>
      rcases p with ⟨ds, rest⟩
      obtain ⟨he, hdsok⟩ := matchAt_sound _ _ _ hm
      have hlen : cs.length + 1 = 12 + ds.length + rest.length := by
        have h2 := congrArg List.length he
        simpa [mkMarker_length] using h2
      have hrf : rest.length ≤ f := by simp at hf; omega
      rw [parseF_cons_match hm] at hq ⊢
      cases qs with
      | nil => simp at hq
      | cons q qs =>
        simp only [List.length_cons, Nat.add_right_cancel_iff] at hq
        have hqok := hok q (by simp)
        have hqsok : ∀ x ∈ qs, dsOK x := fun x hx => hok x (by simp [hx])
        -- normalize the head piece of reOccs
        have hre : reOccs (([], (⟨off, ds⟩ : Occ)) :: (parseF f rest (off + 12 + ds.length)).1)
            (q :: qs) off' =
            ([], (⟨off', q⟩ : Occ)) ::
              reOccs (parseF f rest (off + 12 + ds.length)).1 qs (off' + 12 + q.length) := by
          show ([], (⟨off' + List.length [], q⟩ : Occ)) :: _ = _
          norm_num
        rw [hre]
        have ih := parse_reweave f rest (off + 12 + ds.length) qs (off' + 12 + q.length)
          hrf hq hqsok
        set W := weave (reOccs (parseF f rest (off + 12 + ds.length)).1 qs
          (off' + 12 + q.length)) (parseF f rest (off + 12 + ds.length)).2 with hW
        show parseF ([] ++ (mkMarker q ++ W)).length ([] ++ (mkMarker q ++ W)) off' = _
        rw [List.nil_append]
        rw [parseF_start_match (matchAt_complete q W hqok) (le_refl _)]
        rw [ih]
    | none =>
      have hcsf : cs.length ≤ f := by simp at hf; omega
      rw [parseF_start_nomatch hm hf,
        parseF_stable cs.length f cs (off + 1) (le_refl _) hcsf] at hq ⊢
      have hrec := parseF_recompose f cs (off + 1)
      rcases hp : parseF f cs (off + 1) with ⟨ps, fin⟩
      rw [hp] at hq hrec
      cases ps with
      | nil =>
        simp only [consStep] at hq ⊢
        simp at hq
        subst hq
        rw [show reOccs ([] : List (Str × Occ)) [] off' = [] from rfl]
        have hfin : fin = cs := by simpa [weave] using hrec
        subst hfin
        have ih := parse_reweave f fin (off + 1) [] (off' + 1) hcsf
          (by rw [hp]; rfl) (by intro x hx; simp at hx)
        rw [hp] at ih
        rw [show reOccs ([] : List (Str × Occ)) [] (off' + 1) = [] from rfl] at ih
        rw [show weave ([] : List (Str × Occ)) fin = fin from rfl] at ih
        show parseF (c :: fin).length (c :: fin) off' = ([], c :: fin)
        rw [parseF_start_nomatch hm (le_refl _), ih]
        rfl
      | cons p1 ps2 =>
        rcases p1 with ⟨seg1, o1⟩
        simp only [consStep] at hq ⊢
        cases qs with
        | nil => simp at hq
        | cons q qs2 =>
          simp only [weave] at hrec
          have ih := parse_reweave f cs (off + 1) (q :: qs2) (off' + 1) hcsf
            (by rw [hp]; simpa using hq) hok
          rw [hp] at ih
          simp only [reOccs, weave, List.length_cons] at ih ⊢
          simp only [List.cons_append]
          have e1 : off' + 1 + seg1.length = off' + (seg1.length + 1) := by omega
          rw [e1] at ih
          have hm2 : matchAt ((c :: seg1) ++ (mkMarker o1.ds ++ weave ps2 fin)) = none := by
            have h9 : (c :: seg1) ++ (mkMarker o1.ds ++ weave ps2 fin) = c :: cs := by
              rw [← hrec]
              simp [List.append_assoc]
            rw [h9]
            exact hm
          have hnone3 := matchAt_none_transfer (c :: seg1) (weave ps2 fin)
            (weave (reOccs ps2 qs2 (off' + (seg1.length + 1) + 12 + q.length)) fin)
            o1.ds q (by simp) hm2
          have hnone4 : matchAt (c :: (seg1 ++ mkMarker q ++
              weave (reOccs ps2 qs2 (off' + (seg1.length + 1) + 12 + q.length)) fin))
              = none := by
            have h9 : (c :: seg1) ++ (mkMarker q ++
                weave (reOccs ps2 qs2 (off' + (seg1.length + 1) + 12 + q.length)) fin)
                = c :: (seg1 ++ mkMarker q ++
                  weave (reOccs ps2 qs2 (off' + (seg1.length + 1) + 12 + q.length)) fin) := by
              simp [List.append_assoc]
            rw [← h9]
            exact hnone3
          refine (parseF_start_nomatch hnone4 (le_refl _)).trans ?_
          rw [ih]
          rfl

/-! ### Sorting by match index -/

def insertPiece (x : Str × Occ) : List (Str × Occ) → List (Str × Occ)
  | [] => [x]
  | y :: ys => if x.2.idx < y.2.idx then x :: y :: ys else y :: insertPiece x ys

/-- Stable insertion sort by match index: the embedding of
`foundBlanks.sort((a, b) => a.index - b.index)`.  (`Array.prototype.sort` is
stable, and a stable comparison sort of a strictly ascending sequence is the
identity permutation, so any stable sort embeds it faithfully.) -/
def sortPieces : List (Str × Occ) → List (Str × Occ)
  | [] => []
  | x :: xs => insertPiece x (sortPieces xs)

theorem sortPieces_sorted_id : ∀ ps, List.Chain' (fun p q => p.2.idx < q.2.idx) ps →
    sortPieces ps = ps
  | [], _ => rfl
  | x :: xs, h => by
    rw [sortPieces, sortPieces_sorted_id xs h.tail]
    cases xs with
    | nil => rfl
    | cons y ys =>
      have hxy : x.2.idx < y.2.idx := (List.chain'_cons.mp h).1
      have he : insertPiece x (y :: ys) =
          if x.2.idx < y.2.idx then x :: y :: ys else y :: insertPiece x ys := rfl
      rw [he, if_pos hxy]

theorem consStep_snds (c : Char) (r : List (Str × Occ) × Str) :
    ((consStep c r).1).map Prod.snd = r.1.map Prod.snd := by
  rcases r with ⟨ps, fin⟩
  cases ps with
  | nil => rfl
  | cons p ps => rcases p with ⟨seg, o⟩; rfl

/-- All match indices produced by the scan are at least the running offset. -/
theorem parseF_idx_ge : ∀ f s off, ∀ o ∈ ((parseF f s off).1.map Prod.snd), off ≤ o.idx
  | 0, s, off => by simp [parseF]
  | _ + 1, [], off => by simp [parseF_nil_any]
  | f + 1, c :: cs, off => by
    intro o ho
    cases hm : matchAt (c :: cs) with
    | some pr =>
      rcases pr with ⟨ds, rest⟩
      rw [parseF_cons_match hm] at ho
      simp only [List.map_cons, List.mem_cons] at ho
      rcases ho with ho | ho
      · rw [ho]
      · have := parseF_idx_ge f rest (off + 12 + ds.length) o ho
        omega
    | none =>
      rw [parseF_cons_nomatch hm, consStep_snds] at ho
      have := parseF_idx_ge f cs (off + 1) o ho
      omega

/-- Match indices are strictly increasing in scan order: the `exec` loop
yields ascending offsets, hence the index sort is the identity. -/
theorem parseF_idx_chain : ∀ f s off,
    List.Chain' (fun a b : Occ => a.idx < b.idx) ((parseF f s off).1.map Prod.snd)
  | 0, s, off => by simp [parseF]
  | _ + 1, [], off => by simp [parseF_nil_any]
  | f + 1, c :: cs, off => by
    cases hm : matchAt (c :: cs) with
    | some pr =>
      rcases pr with ⟨ds, rest⟩
      rw [parseF_cons_match hm]
      simp only [List.map_cons]
      refine List.chain'_cons'.mpr ⟨?_, parseF_idx_chain f rest (off + 12 + ds.length)⟩
      intro o ho
      have hmem := List.mem_of_mem_head? ho
      have := parseF_idx_ge f rest (off + 12 + ds.length) o hmem
      show off < o.idx
      omega
    | none =>
      rw [parseF_cons_nomatch hm, consStep_snds]
      exact parseF_idx_chain f cs (off + 1)

theorem parseTpl_sortPieces (t : Str) : sortPieces (parseTpl t).1 = (parseTpl t).1 := by
  apply sortPieces_sorted_id
  exact (List.chain'_map Prod.snd).mp (parseF_idx_chain t.length t 0)

/-! ### The declaredIndex → canonicalIndex map -/

/-- The `forEach` building `idMap`: `idMap.set(b.originalId, i + 1)` for each
blank in index order — later writes win, lookups not written return
`undefined` (`none`). -/
def idMapAux : List (Str × Occ) → Nat → (Nat → Option Nat) → Nat → Option Nat
  | [], _, m => m
  | p :: ps, i, m =>
    idMapAux ps (i + 1) (fun d => if d = digitsVal p.2.ds then some (i + 1) else m d)

def idMapOf (ps : List (Str × Occ)) : Nat → Option Nat := idMapAux ps 0 (fun _ => none)

theorem idMapAux_not_mem : ∀ ps i m d, (∀ p ∈ ps, digitsVal p.2.ds ≠ d) →
    idMapAux ps i m d = m d
  | [], _, _, _, _ => rfl
  | p :: ps, i, m, d, h => by
    have he : idMapAux (p :: ps) i m =
        idMapAux ps (i + 1) (fun x => if x = digitsVal p.2.ds then some (i + 1) else m x) := rfl
    rw [he, idMapAux_not_mem ps (i + 1) _ d (fun x hx => h x (List.mem_cons_of_mem p hx))]
    exact if_neg (fun hc => (h p (by simp)) hc.symm)

/-- Last-write-wins: if position `j` is the last occurrence whose declared
index is `d`, the map sends `d` to `j`'s canonical index. -/
theorem idMapAux_last : ∀ ps i m d j p, ps.get? j = some p → digitsVal p.2.ds = d →
    (∀ k pk, j < k → ps.get? k = some pk → digitsVal pk.2.ds ≠ d) →
    idMapAux ps i m d = some (i + j + 1)
  | [], i, m, d, j, p, hj, _, _ => by simp at hj
  | x :: tl, i, m, d, j, p, hj, hval, hlast => by
    have he : idMapAux (x :: tl) i m =
        idMapAux tl (i + 1) (fun y => if y = digitsVal x.2.ds then some (i + 1) else m y) := rfl
    cases j with
    | zero =>
      have hx : x = p := by simpa using hj
      subst hx
      have hnot : ∀ q ∈ tl, digitsVal q.2.ds ≠ d := by
        intro q hq
        obtain ⟨k, hk⟩ := List.mem_iff_get?.mp hq
        exact hlast (k + 1) q (by omega) (by simpa using hk)
      rw [he, idMapAux_not_mem tl (i + 1) _ d hnot, if_pos hval.symm]
    | succ j2 =>
      have ih := idMapAux_last tl (i + 1)
        (fun y => if y = digitsVal x.2.ds then some (i + 1) else m y) d j2 p
        (by simpa using hj) hval
        (fun k pk hk hget => hlast (k + 1) pk (by omega) (by simpa using hget))
      rw [he, ih]
      congr 1
      omega

/-! ### Steps -/

structure Step where
  id : Str
  instruction : Str
  expectedAnswer : Str
  outputSimulation : Str
deriving DecidableEq, Repr

/-- The fallback step inserted on a step-count mismatch (the source's object
literal with `"Missing step definition."` / `"???"`). -/
def sentinelStep (k : Nat) : Step :=
  { id := "step_".data ++ natStr k
  , instruction := "Missing step definition.".data
  , expectedAnswer := "???".data
  , outputSimulation := [] }

/-! ### The instruction rewrite (`headerRegex`) -/

/-- One attempted match of `` new RegExp(`At\\s+Blank\\s+${d}`, 'gi') `` at
the start of `s`, where `dstr` renders `d`; returns the rest after the match.
The digits are a fixed literal in this regex, so no digit-run maximality is
involved: `"At Blank 12"` contains a match of the pattern for `d = 1`. -/
def matchHdrAt (dstr s : Str) : Option Str :=
  (ciLitStrip ['A', 't'] s).bind fun r1 =>
  (wsPlus r1).bind fun r2 =>
  (ciLitStrip ['B', 'l', 'a', 'n', 'k'] r2).bind fun r3 =>
  (wsPlus r3).bind fun r4 =>
  dropLit dstr r4

/-- Fueled global replace
`step.instruction.replace(headerRegex, `At Blank ${newId}`)`: emit the
replacement and resume after the match (never rescanning the replacement). -/
def replaceHdrF (d c : Nat) : Nat → Str → Str
  | 0, s => s
  | _ + 1, [] => []
  | f + 1, ch :: cs =>
    match matchHdrAt (natStr d) (ch :: cs) with
    | some rest => "At Blank ".data ++ natStr c ++ replaceHdrF d c f rest
    | none => ch :: replaceHdrF d c f cs

def replaceHdr (d c : Nat) (s : Str) : Str := replaceHdrF d c s.length s

/-! ### The context rewrite (`contextRegex`) -/

/-- One attempted match of `/At\s+Blank\s+(\d+)/gi` at the start of `s`:
`some (digits, rest)` on success. -/
def matchCtxAt (s : Str) : Option (Str × Str) :=
  (ciLitStrip ['A', 't'] s).bind fun r1 =>
  (wsPlus r1).bind fun r2 =>
  (ciLitStrip ['B', 'l', 'a', 'n', 'k'] r2).bind fun r3 =>
  (wsPlus r3).bind fun r4 =>
    if (digitSpan r4).1 = [] then none
    else some ((digitSpan r4).1, (digitSpan r4).2)

/-- Fueled global replace with the source's callback: mapped numbers are
rewritten to `` `At Blank ${newId}` `` (the canonical indices `i + 1` are
always nonzero, hence truthy), unmapped matches are returned unchanged. -/
def replaceCtxF (m : Nat → Option Nat) : Nat → Str → Str
  | 0, s => s
  | _ + 1, [] => []
  | f + 1, ch :: cs =>
    match matchCtxAt (ch :: cs) with
    | some (ds, rest) =>
      (match m (digitsVal ds) with
       | some c2 => "At Blank ".data ++ natStr c2
       | none => (ch :: cs).take ((ch :: cs).length - rest.length)) ++ replaceCtxF m f rest
    | none => ch :: replaceCtxF m f cs

def replaceCtx (m : Nat → Option Nat) (s : Str) : Str := replaceCtxF m s.length s

/-! ### The scenario and the post-processing pipeline -/

/-- `LogicScenario` (`src/data/scenario.ts`); the difficulty union type is
opaque text here — the pipeline never inspects it.  The optional fields the
pipeline never touches (`commandPattern`, `captureVariable`) are omitted;
`codeTemplate` is always a string after assembly (`generated.codeTemplate
|| ''`). -/
structure LogicScenario where
  id : Str
  title : Str
  description : Str
  difficulty : Str
  environment : Str
  context : Str
  codeTemplate : Str
  steps : List Step
deriving DecidableEq, Repr

/-- One slot of `newSteps`: `steps[b.originalId - 1]` with the source's
fallback.  JS indexing with `originalId - 1` yields `undefined` both for
`originalId = 0` (index `-1`) and past the end, taking the fallback branch. -/
def remapStep (steps : List Step) (d i : Nat) : Step :=
  match d with
  | 0 => sentinelStep (i + 1)
  | d2 + 1 =>
    match steps.get? d2 with
    | some st =>
      { st with id := "step_".data ++ natStr (i + 1)
              , instruction := replaceHdr d (i + 1) st.instruction }
    | none => sentinelStep (i + 1)

def newStepsAux (steps : List Step) : Nat → List (Str × Occ) → List Step
  | _, [] => []
  | i, p :: ps => remapStep steps (digitsVal p.2.ds) i :: newStepsAux steps (i + 1) ps

/-- `newSteps`: the `forEach` writes slot `i` for the `i`-th blank, so every
slot `0..n-1` is written exactly once and the trailing
`filter(s => !!s)` keeps every element (objects are truthy). -/
def newStepsOf (steps : List Step) (ps : List (Str × Occ)) : List Step :=
  newStepsAux steps 0 ps

/-- The canonical digit texts `1, 2, ..., k` starting at position `i`. -/
def canonQs : Nat → Nat → List Str
  | _, 0 => []
  | i, k + 1 => natStr (i + 1) :: canonQs (i + 1) k

/-- The rebuilt template (`rebuilt` in the source): gaps copied verbatim via
`substring(lastIdx, b.index)`, each marker replaced by
`` `___BLANK_${i + 1}___` ``. -/
def rebuiltOf (ps : List (Str × Occ)) (fin : Str) : Str :=
  weave (reOccs ps (canonQs 0 ps.length) 0) fin

/-- The post-processing section of `generateScenario` (`ai.ts` lines
384-461): truthiness guard on `codeTemplate`, scan, sort by index, `idMap`,
template rebuild, step remapping, context rewrite guarded by `context`
truthiness. -/
def postProcess (s : LogicScenario) : LogicScenario :=
  if s.codeTemplate = [] then s
  else
    let pr := parseTpl s.codeTemplate
    let ps := sortPieces pr.1
    if ps = [] then s
    else
      { s with
        codeTemplate := rebuiltOf ps pr.2
        steps := newStepsOf s.steps ps
        context := if s.context = [] then s.context
                   else replaceCtx (idMapOf ps) s.context }

/-! ### Replace-function lemmas -/

theorem matchHdrAt_nil (dstr : Str) : matchHdrAt dstr [] = none := rfl

theorem matchHdrAt_sound (dstr s rest : Str) (h : matchHdrAt dstr s = some rest) :
    ∃ t, s = t ++ rest ∧ 9 + dstr.length ≤ t.length := by
  unfold matchHdrAt at h
  rw [Option.bind_eq_some] at h
  obtain ⟨r1, h1, h⟩ := h
  rw [Option.bind_eq_some] at h
  obtain ⟨r2, h2, h⟩ := h
  rw [Option.bind_eq_some] at h
  obtain ⟨r3, h3, h⟩ := h
  rw [Option.bind_eq_some] at h
  obtain ⟨r4, h4, h5⟩ := h
  obtain ⟨t1, ht1, hl1⟩ := ciLitStrip_sound _ _ _ h1
  obtain ⟨t2, ht2, hn2⟩ := wsPlus_sound _ _ h2
  obtain ⟨t3, ht3, hl3⟩ := ciLitStrip_sound _ _ _ h3
  obtain ⟨t4, ht4, hn4⟩ := wsPlus_sound _ _ h4
  have ht5 := dropLit_sound _ _ _ h5
  refine ⟨t1 ++ (t2 ++ (t3 ++ (t4 ++ dstr))), ?_, ?_⟩
  · rw [ht1, ht2, ht3, ht4, ht5]
    simp [List.append_assoc]
  · have hp2 : 0 < t2.length := List.length_pos.mpr hn2
    have hp4 : 0 < t4.length := List.length_pos.mpr hn4
    simp only [List.length_append]
    simp only [List.length_cons, List.length_nil] at hl1 hl3
    omega

theorem replaceHdrF_nil (d c : Nat) : ∀ f, replaceHdrF d c f [] = []
  | 0 => rfl
  | _ + 1 => rfl

theorem replaceHdrF_cons_match {d c f : Nat} {ch : Char} {cs rest : Str}
    (h : matchHdrAt (natStr d) (ch :: cs) = some rest) :
    replaceHdrF d c (f + 1) (ch :: cs) =
      "At Blank ".data ++ natStr c ++ replaceHdrF d c f rest := by
  simp only [replaceHdrF, h]

theorem replaceHdrF_cons_nomatch {d c f : Nat} {ch : Char} {cs : Str}
    (h : matchHdrAt (natStr d) (ch :: cs) = none) :
    replaceHdrF d c (f + 1) (ch :: cs) = ch :: replaceHdrF d c f cs := by
  simp only [replaceHdrF, h]

theorem replaceHdrF_stable : ∀ f g d c s, s.length ≤ f → s.length ≤ g →
    replaceHdrF d c f s = replaceHdrF d c g s
  | f, g, d, c, [], _, _ => by rw [replaceHdrF_nil, replaceHdrF_nil]
  | 0, g, d, c, ch :: cs, hf, _ => by simp at hf
  | f + 1, 0, d, c, ch :: cs, _, hg => by simp at hg
  | f + 1, g + 1, d, c, ch :: cs, hf, hg => by
    simp only [List.length_cons] at hf hg
    cases hm : matchHdrAt (natStr d) (ch :: cs) with
    | some rest =>
      obtain ⟨t, ht, htl⟩ := matchHdrAt_sound _ _ _ hm
      have hlen : t.length + rest.length = cs.length + 1 := by
        have := congrArg List.length ht
        simp only [List.length_append, List.length_cons] at this
        omega
      rw [replaceHdrF_cons_match hm, replaceHdrF_cons_match hm,
        replaceHdrF_stable f g d c rest (by omega) (by omega)]
    | none =>
      rw [replaceHdrF_cons_nomatch hm, replaceHdrF_cons_nomatch hm,
        replaceHdrF_stable f g d c cs (by omega) (by omega)]

theorem replaceHdrF_start_match (d c : Nat) {f : Nat} {s rest : Str}
    (h : matchHdrAt (natStr d) s = some rest) (hf : s.length ≤ f) :
    replaceHdrF d c f s = "At Blank ".data ++ natStr c ++ replaceHdrF d c rest.length rest := by
  obtain ⟨t, ht, htl⟩ := matchHdrAt_sound _ _ _ h
  have hlen : s.length = t.length + rest.length := by rw [ht]; simp
  cases s with
  | nil => rw [matchHdrAt_nil] at h; exact Option.noConfusion h
  | cons ch cs =>
    cases f with
    | zero => simp at hf
    | succ f =>
      rw [replaceHdrF_cons_match h,
        replaceHdrF_stable f rest.length d c rest
          (by simp only [List.length_cons] at hf hlen; omega) (le_refl _)]

theorem replaceHdrF_start_nomatch (d c : Nat) {f : Nat} {ch : Char} {cs : Str}
    (h : matchHdrAt (natStr d) (ch :: cs) = none) (hf : (ch :: cs).length ≤ f) :
    replaceHdrF d c f (ch :: cs) = ch :: replaceHdrF d c cs.length cs := by
  cases f with
  | zero => simp at hf
  | succ f =>
    rw [replaceHdrF_cons_nomatch h,
      replaceHdrF_stable f cs.length d c cs (by simp at hf; omega) (le_refl _)]

/-- Walking over match-free text: the replace copies it verbatim. -/
theorem replaceHdr_walk (d c : Nat) : ∀ u X,
    (∀ k, k < u.length → matchHdrAt (natStr d) (u.drop k ++ X) = none) →
    replaceHdrF d c (u ++ X).length (u ++ X) = u ++ replaceHdrF d c X.length X
  | [], X, _ => by simp
  | a :: u2, X, h => by
    have h0 := h 0 (by simp)
    rw [List.drop_zero] at h0
    rw [List.cons_append] at h0 ⊢
    rw [replaceHdrF_start_nomatch d c h0 (le_refl _)]
    rw [replaceHdr_walk d c u2 X
      (fun k hk => by
        have := h (k + 1) (by simp only [List.length_cons]; omega)
        simpa using this)]
    rfl

theorem matchCtxAt_nil : matchCtxAt [] = none := rfl

theorem matchCtxAt_sound (s ds rest : Str) (h : matchCtxAt s = some (ds, rest)) :
    ∃ t, s = t ++ rest ∧ 9 + ds.length ≤ t.length ∧ dsOK ds := by
  unfold matchCtxAt at h
  rw [Option.bind_eq_some] at h
  obtain ⟨r1, h1, h⟩ := h
  rw [Option.bind_eq_some] at h
  obtain ⟨r2, h2, h⟩ := h
  rw [Option.bind_eq_some] at h
  obtain ⟨r3, h3, h⟩ := h
  rw [Option.bind_eq_some] at h
  obtain ⟨r4, h4, h5⟩ := h
  rcases hp : digitSpan r4 with ⟨d1, d2⟩
  rw [hp] at h5
  obtain ⟨hr1, hr2, _⟩ := digitSpan_sound r4
  rw [hp] at hr1 hr2
  by_cases hne : d1 = []
  · rw [if_pos hne] at h5; exact Option.noConfusion h5
  · rw [if_neg hne, Option.some_inj] at h5
    have hds : d1 = ds := congrArg Prod.fst h5
    have hrest : d2 = rest := congrArg Prod.snd h5
    subst hds hrest
    obtain ⟨t1, ht1, hl1⟩ := ciLitStrip_sound _ _ _ h1
    obtain ⟨t2, ht2, hn2⟩ := wsPlus_sound _ _ h2
    obtain ⟨t3, ht3, hl3⟩ := ciLitStrip_sound _ _ _ h3
    obtain ⟨t4, ht4, hn4⟩ := wsPlus_sound _ _ h4
    refine ⟨t1 ++ (t2 ++ (t3 ++ (t4 ++ d1))), ?_, ?_, hne, by simpa using hr2⟩
    · rw [ht1, ht2, ht3, ht4]
      have h6 : r4 = d1 ++ d2 := by simpa using hr1
      rw [h6]
      simp [List.append_assoc]
    · have hp2 : 0 < t2.length := List.length_pos.mpr hn2
      have hp4 : 0 < t4.length := List.length_pos.mpr hn4
      simp only [List.length_append]
      simp only [List.length_cons, List.length_nil] at hl1 hl3
      omega

theorem replaceCtxF_nil (m : Nat → Option Nat) : ∀ f, replaceCtxF m f [] = []
  | 0 => rfl
  | _ + 1 => rfl

theorem replaceCtxF_cons_match {m : Nat → Option Nat} {f : Nat} {ch : Char} {cs ds rest : Str}
    (h : matchCtxAt (ch :: cs) = some (ds, rest)) :
    replaceCtxF m (f + 1) (ch :: cs) =
      (match m (digitsVal ds) with
       | some c2 => "At Blank ".data ++ natStr c2
       | none => (ch :: cs).take ((ch :: cs).length - rest.length)) ++ replaceCtxF m f rest := by
  simp only [replaceCtxF, h]

theorem replaceCtxF_cons_nomatch {m : Nat → Option Nat} {f : Nat} {ch : Char} {cs : Str}
    (h : matchCtxAt (ch :: cs) = none) :
    replaceCtxF m (f + 1) (ch :: cs) = ch :: replaceCtxF m f cs := by
  simp only [replaceCtxF, h]

theorem replaceCtxF_stable : ∀ f g m s, s.length ≤ f → s.length ≤ g →
    replaceCtxF m f s = replaceCtxF m g s
  | f, g, m, [], _, _ => by rw [replaceCtxF_nil, replaceCtxF_nil]
  | 0, g, m, ch :: cs, hf, _ => by simp at hf
  | f + 1, 0, m, ch :: cs, _, hg => by simp at hg
  | f + 1, g + 1, m, ch :: cs, hf, hg => by
    simp only [List.length_cons] at hf hg
    cases hm : matchCtxAt (ch :: cs) with
    | some pr =>
      rcases pr with ⟨ds, rest⟩
      obtain ⟨t, ht, htl, _⟩ := matchCtxAt_sound _ _ _ hm
      have hlen : t.length + rest.length = cs.length + 1 := by
        have := congrArg List.length ht
        simp only [List.length_append, List.length_cons] at this
        omega
      rw [replaceCtxF_cons_match hm, replaceCtxF_cons_match hm,
        replaceCtxF_stable f g m rest (by omega) (by omega)]
    | none =>
      rw [replaceCtxF_cons_nomatch hm, replaceCtxF_cons_nomatch hm,
        replaceCtxF_stable f g m cs (by omega) (by omega)]

theorem replaceCtxF_start_match (m : Nat → Option Nat) {f : Nat} {s ds rest : Str}
    (h : matchCtxAt s = some (ds, rest)) (hf : s.length ≤ f) :
    replaceCtxF m f s =
      (match m (digitsVal ds) with
       | some c2 => "At Blank ".data ++ natStr c2
       | none => s.take (s.length - rest.length)) ++ replaceCtxF m rest.length rest := by
  obtain ⟨t, ht, htl, _⟩ := matchCtxAt_sound _ _ _ h
  have hlen : s.length = t.length + rest.length := by rw [ht]; simp
  cases s with
  | nil => rw [matchCtxAt_nil] at h; exact Option.noConfusion h
  | cons ch cs =>
    cases f with
    | zero => simp at hf
    | succ f =>
      rw [replaceCtxF_cons_match h,
        replaceCtxF_stable f rest.length m rest
          (by simp only [List.length_cons] at hf hlen; omega) (le_refl _)]

theorem replaceCtxF_start_nomatch (m : Nat → Option Nat) {f : Nat} {ch : Char} {cs : Str}
    (h : matchCtxAt (ch :: cs) = none) (hf : (ch :: cs).length ≤ f) :
    replaceCtxF m f (ch :: cs) = ch :: replaceCtxF m cs.length cs := by
  cases f with
  | zero => simp at hf
  | succ f =>
    rw [replaceCtxF_cons_nomatch h,
      replaceCtxF_stable f cs.length m cs (by simp at hf; omega) (le_refl _)]

/-- Walking over match-free text: the context replace copies it verbatim. -/
theorem replaceCtx_walk (m : Nat → Option Nat) : ∀ u X,
    (∀ k, k < u.length → matchCtxAt (u.drop k ++ X) = none) →
    replaceCtxF m (u ++ X).length (u ++ X) = u ++ replaceCtxF m X.length X
  | [], X, _ => by simp
  | a :: u2, X, h => by
    have h0 := h 0 (by simp)
    rw [List.drop_zero] at h0
    rw [List.cons_append] at h0 ⊢
    rw [replaceCtxF_start_nomatch m h0 (le_refl _)]
    rw [replaceCtx_walk m u2 X
      (fun k hk => by
        have := h (k + 1) (by simp only [List.length_cons]; omega)
        simpa using this)]
    rfl

/-! ### Structural lemmas about the pipeline -/

theorem parseTpl_nil : parseTpl [] = ([], []) := rfl

theorem postProcess_no_blanks (s : LogicScenario)
    (h : (parseTpl s.codeTemplate).1 = []) : postProcess s = s := by
  unfold postProcess
  by_cases ht : s.codeTemplate = []
  · rw [if_pos ht]
  · rw [if_neg ht]
    simp only [parseTpl_sortPieces, h]
    rfl

theorem postProcess_eq (s : LogicScenario) (hne : (parseTpl s.codeTemplate).1 ≠ []) :
    postProcess s =
      { s with
        codeTemplate := rebuiltOf (parseTpl s.codeTemplate).1 (parseTpl s.codeTemplate).2
        steps := newStepsOf s.steps (parseTpl s.codeTemplate).1
        context := if s.context = [] then s.context
                   else replaceCtx (idMapOf (parseTpl s.codeTemplate).1) s.context } := by
  have htne : s.codeTemplate ≠ [] := by
    intro h0
    apply hne
    rw [h0]
    rfl
  unfold postProcess
  rw [if_neg htne]
  simp only [parseTpl_sortPieces]
  rw [if_neg hne]

theorem canonQs_length : ∀ i k, (canonQs i k).length = k
  | _, 0 => rfl
  | i, k + 1 => by simp [canonQs, canonQs_length (i + 1) k]

theorem canonQs_dsOK : ∀ i k, ∀ q ∈ canonQs i k, dsOK q
  | _, 0 => by simp [canonQs]
  | i, k + 1 => by
    intro q hq
    rcases List.mem_cons.mp hq with hq | hq
    · exact hq ▸ natStr_dsOK (i + 1)
    · exact canonQs_dsOK (i + 1) k q hq

theorem canonQs_vals : ∀ i k, (canonQs i k).map digitsVal = List.range' (i + 1) k
  | _, 0 => rfl
  | i, k + 1 => by
    rw [List.range'_succ]
    simp only [canonQs, List.map_cons, digitsVal_natStr, canonQs_vals (i + 1) k]

theorem reOccs_spec : ∀ ps qs (off : Nat), qs.length = ps.length →
    (reOccs ps qs off).map Prod.fst = ps.map Prod.fst
    ∧ (reOccs ps qs off).map (fun p => p.2.ds) = qs
  | [], [], off, _ => ⟨rfl, rfl⟩
  | [], q :: qs, off, h => by simp at h
  | p :: ps, [], off, h => by simp at h
  | (seg, o) :: ps, q :: qs, off, h => by
    obtain ⟨ih1, ih2⟩ := reOccs_spec ps qs (off + seg.length + 12 + q.length)
      (by simpa using h)
    constructor
    · simp only [reOccs, List.map_cons, ih1]
    · simp only [reOccs, List.map_cons, ih2]

/-- Rescanning the rebuilt template: same gaps and final segment, canonical
digit texts. -/
theorem parseTpl_rebuilt (t : Str) :
    parseTpl (rebuiltOf (parseTpl t).1 (parseTpl t).2)
      = (reOccs (parseTpl t).1 (canonQs 0 (parseTpl t).1.length) 0, (parseTpl t).2) :=
  parse_reweave t.length t 0 (canonQs 0 (parseTpl t).1.length) 0 (le_refl _)
    (canonQs_length 0 _) (canonQs_dsOK 0 _)

theorem remapStep_id (steps : List Step) (d i : Nat) :
    (remapStep steps d i).id = "step_".data ++ natStr (i + 1) := by
  cases d with
  | zero => rfl
  | succ d2 =>
    cases hst : steps.get? d2 with
    | none =>
      simp only [remapStep]
      rw [hst]
      rfl
    | some st =>
      simp only [remapStep]
      rw [hst]

theorem newStepsAux_length : ∀ steps (i : Nat) ps,
    (newStepsAux steps i ps).length = ps.length
  | _, _, [] => rfl
  | steps, i, p :: ps => by
    simp [newStepsAux, newStepsAux_length steps (i + 1) ps]

theorem newStepsAux_get? : ∀ steps (i : Nat) ps j p, ps.get? j = some p →
    (newStepsAux steps i ps).get? j = some (remapStep steps (digitsVal p.2.ds) (i + j))
  | steps, i, [], j, p, hj => by simp at hj
  | steps, i, q :: ps, 0, p, hj => by
    have : q = p := by simpa using hj
    subst this
    rfl
  | steps, i, q :: ps, j + 1, p, hj => by
    have ih := newStepsAux_get? steps (i + 1) ps j p (by simpa using hj)
    show (newStepsAux steps (i + 1) ps).get? j = _
    rw [ih]
    congr 2
    omega

theorem newStepsAux_ids : ∀ steps (i : Nat) ps,
    (newStepsAux steps i ps).map Step.id
      = (canonQs i ps.length).map (fun q => "step_".data ++ q)
  | _, _, [] => rfl
  | steps, i, p :: ps => by
    simp only [newStepsAux, List.map_cons, remapStep_id, canonQs_length, canonQs,
      newStepsAux_ids steps (i + 1) ps]

/-! ### Identity on already-normalized scenarios -/

theorem weave_reOccs_same : ∀ ps qs (off : Nat) fin, qs = ps.map (fun p => p.2.ds) →
    weave (reOccs ps qs off) fin = weave ps fin
  | [], _, off, fin, hq => by rw [hq]; rfl
  | (seg, o) :: ps, _, off, fin, hq => by
    rw [hq]
    show weave ((seg, ⟨off + seg.length, o.ds⟩) :: reOccs ps (ps.map fun p => p.2.ds)
      (off + seg.length + 12 + o.ds.length)) fin = _
    show seg ++ mkMarker o.ds ++ _ = seg ++ mkMarker o.ds ++ weave ps fin
    rw [weave_reOccs_same ps _ (off + seg.length + 12 + o.ds.length) fin rfl]

/-- Per-step normalization: ids already canonical and the instruction a fixed
point of its own header rewrite. -/
def stepsNormal : Nat → List Step → Prop
  | _, [] => True
  | i, st :: rest =>
    st.id = "step_".data ++ natStr (i + 1)
    ∧ replaceHdr (i + 1) (i + 1) st.instruction = st.instruction
    ∧ stepsNormal (i + 1) rest

instance stepsNormal_decidable : ∀ i ss, Decidable (stepsNormal i ss)
  | _, [] => .isTrue trivial
  | i, st :: rest =>
    have := stepsNormal_decidable (i + 1) rest
    by unfold stepsNormal; infer_instance

theorem stepsNormal_get? : ∀ (i : Nat) ss, stepsNormal i ss → ∀ j st, ss.get? j = some st →
    st.id = "step_".data ++ natStr (i + j + 1)
    ∧ replaceHdr (i + j + 1) (i + j + 1) st.instruction = st.instruction
  | i, [], _, j, st, hj => by simp at hj
  | i, s0 :: ss, h, 0, st, hj => by
    have : s0 = st := by simpa using hj
    subst this
    exact ⟨h.1, h.2.1⟩
  | i, s0 :: ss, h, j + 1, st, hj => by
    have := stepsNormal_get? (i + 1) ss h.2.2 j st (by simpa using hj)
    constructor
    · rw [this.1]; congr 2; omega
    · have h2 := this.2
      rw [show i + 1 + j + 1 = i + (j + 1) + 1 by omega] at h2
      exact h2

theorem newStepsAux_id_of_normal : ∀ ps (i : Nat) steps,
    ps.map (fun p => p.2.ds) = canonQs i ps.length →
    steps.length = i + ps.length →
    stepsNormal 0 steps →
    newStepsAux steps i ps = steps.drop i
  | [], i, steps, _, hlen, _ => by
    have hd : steps.drop i = [] := List.drop_eq_nil_of_le (by simp at hlen; omega)
    rw [show newStepsAux steps i [] = [] from rfl, hd]
  | (seg, o) :: ps, i, steps, hds, hlen, hnorm => by
    simp only [List.map_cons, List.length_cons, canonQs] at hds
    have hdso : o.ds = natStr (i + 1) := (List.cons_eq_cons.mp hds).1
    have hdsps : ps.map (fun p => p.2.ds) = canonQs (i + 1) ps.length :=
      (List.cons_eq_cons.mp hds).2
    have hlt : i < steps.length := by simp at hlen; omega
    cases hst : steps.get? i with
    | none => exact absurd (List.get?_eq_none.mp hst) (by omega)
    | some st =>
      have h7 := stepsNormal_get? 0 steps hnorm i st hst
      rw [Nat.zero_add] at h7
      obtain ⟨hid, hinstr⟩ := h7
      have hrs : remapStep steps (digitsVal o.ds) i = st := by
        rw [hdso, digitsVal_natStr]
        simp only [remapStep]
        rw [hst]
        show ({ id := "step_".data ++ natStr (i + 1),
                instruction := replaceHdr (i + 1) (i + 1) st.instruction,
                expectedAnswer := st.expectedAnswer,
                outputSimulation := st.outputSimulation } : Step) = st
        rw [hinstr, ← hid]
      show remapStep steps (digitsVal o.ds) i :: newStepsAux steps (i + 1) ps = steps.drop i
      rw [hrs, newStepsAux_id_of_normal ps (i + 1) steps hdsps (by simp at hlen ⊢; omega) hnorm]
      rw [List.drop_eq_get_cons hlt]
      congr 1
      have h8 := List.get?_eq_get hlt
      rw [hst] at h8
      exact Option.some_inj.mp h8

theorem postProcess_codeTemplate (s : LogicScenario)
    (hne : (parseTpl s.codeTemplate).1 ≠ []) :
    (postProcess s).codeTemplate
      = rebuiltOf (parseTpl s.codeTemplate).1 (parseTpl s.codeTemplate).2 := by
  rw [postProcess_eq s hne]

theorem postProcess_steps (s : LogicScenario)
    (hne : (parseTpl s.codeTemplate).1 ≠ []) :
    (postProcess s).steps = newStepsOf s.steps (parseTpl s.codeTemplate).1 := by
  rw [postProcess_eq s hne]

theorem postProcess_context (s : LogicScenario)
    (hne : (parseTpl s.codeTemplate).1 ≠ []) :
    (postProcess s).context
      = if s.context = [] then s.context
        else replaceCtx (idMapOf (parseTpl s.codeTemplate).1) s.context := by
  rw [postProcess_eq s hne]

/-- The declared indices of the template's markers, in scan (offset) order. -/
def templateIds (t : Str) : List Nat := (parseTpl t).1.map (fun p => digitsVal p.2.ds)

/-- The template with every marker span removed: the gaps and the final
segment, concatenated in order. -/
def stripMarkers (t : Str) : Str :=
  ((parseTpl t).1.map Prod.fst).foldr (· ++ ·) (parseTpl t).2

theorem templateIds_rebuilt (t : Str) :
    templateIds (rebuiltOf (parseTpl t).1 (parseTpl t).2)
      = List.range' 1 (parseTpl t).1.length := by
  unfold templateIds
  rw [parseTpl_rebuilt t]
  have h2 := congrArg (List.map digitsVal)
    (reOccs_spec (parseTpl t).1 (canonQs 0 (parseTpl t).1.length) 0
      (canonQs_length 0 _)).2
  rw [List.map_map] at h2
  have h3 : (fun p : Str × Occ => digitsVal p.2.ds)
      = digitsVal ∘ (fun p : Str × Occ => p.2.ds) := rfl
  rw [show ((reOccs (parseTpl t).1 (canonQs 0 (parseTpl t).1.length) 0, (parseTpl t).2).1 :
      List (Str × Occ)) = reOccs (parseTpl t).1 (canonQs 0 (parseTpl t).1.length) 0 from rfl]
  rw [h3, h2, canonQs_vals]

theorem templateIds_get? (t : Str) (j d : Nat)
    (h : (templateIds t).get? j = some d) :
    ∃ p, (parseTpl t).1.get? j = some p ∧ digitsVal p.2.ds = d := by
  unfold templateIds at h
  rw [List.get?_map] at h
  obtain ⟨p, hp, hd⟩ := Option.map_eq_some'.mp h
  exact ⟨p, hp, hd⟩

theorem templateIds_ne_nil (t : Str) (j d : Nat)
    (h : (templateIds t).get? j = some d) : (parseTpl t).1 ≠ [] := by
  obtain ⟨p, hp, _⟩ := templateIds_get? t j d h
  intro h0
  rw [h0] at hp
  simp at hp

/-! ## The claims -/

/-- C10: normalization only ever modifies `context`, `codeTemplate` and
`steps`; the assembled scenario's `id`, `title`, `description`, `difficulty`
and `environment` are those of the input scenario. -/
theorem c10_untouched_fields (s : LogicScenario) :
    (postProcess s).id = s.id ∧ (postProcess s).title = s.title
    ∧ (postProcess s).description = s.description
    ∧ (postProcess s).difficulty = s.difficulty
    ∧ (postProcess s).environment = s.environment := by
  by_cases hne : (parseTpl s.codeTemplate).1 = []
  · rw [postProcess_no_blanks s hne]
    exact ⟨rfl, rfl, rfl, rfl, rfl⟩
  · rw [postProcess_eq s hne]
    exact ⟨rfl, rfl, rfl, rfl, rfl⟩

/-- C5: the template rewrite changes only the marker spans: stripping the
markers from the corrected template yields exactly the original template with
its markers stripped — every gap character, including whitespace and line
breaks, survives byte-for-byte. -/
theorem c5_template_frame (s : LogicScenario) :
    stripMarkers (postProcess s).codeTemplate = stripMarkers s.codeTemplate := by
  by_cases hne : (parseTpl s.codeTemplate).1 = []
  · rw [postProcess_no_blanks s hne]
  · rw [postProcess_codeTemplate s hne]
    show stripMarkers (rebuiltOf (parseTpl s.codeTemplate).1 (parseTpl s.codeTemplate).2)
      = stripMarkers s.codeTemplate
    unfold stripMarkers
    rw [parseTpl_rebuilt s.codeTemplate]
    rw [show ((reOccs (parseTpl s.codeTemplate).1
        (canonQs 0 (parseTpl s.codeTemplate).1.length) 0, (parseTpl s.codeTemplate).2).1 :
        List (Str × Occ)) = reOccs (parseTpl s.codeTemplate).1
        (canonQs 0 (parseTpl s.codeTemplate).1.length) 0 from rfl]
    rw [(reOccs_spec (parseTpl s.codeTemplate).1 _ 0 (canonQs_length 0 _)).1]

/-- C2: for a marker at scan position `j` whose declared index `d` names an
existing original step, the remapped steps sequence has one entry per marker
and position `j` (canonical index `j + 1`) holds the step originally at
position `d - 1`, its identifier rewritten to `step_<j+1>` and its own
`At Blank <d>` references renumbered. -/
theorem c2_step_remapper (s : LogicScenario) (j d : Nat) (st : Step)
    (hd : (templateIds s.codeTemplate).get? j = some d)
    (hd1 : 1 ≤ d)
    (hst : s.steps.get? (d - 1) = some st) :
    (postProcess s).steps.length = (parseTpl s.codeTemplate).1.length
    ∧ (postProcess s).steps.get? j =
        some { st with id := "step_".data ++ natStr (j + 1),
                       instruction := replaceHdr d (j + 1) st.instruction } := by
  have hne := templateIds_ne_nil _ _ _ hd
  obtain ⟨p, hp, hval⟩ := templateIds_get? _ _ _ hd
  rw [postProcess_steps s hne]
  unfold newStepsOf
  constructor
  · exact newStepsAux_length s.steps 0 _
  · rw [newStepsAux_get? s.steps 0 _ j p hp, hval, Nat.zero_add]
    obtain ⟨d2, rfl⟩ : ∃ d2, d = d2 + 1 := ⟨d - 1, by omega⟩
    simp only [remapStep]
    rw [show d2 + 1 - 1 = d2 from rfl] at hst
    rw [hst]

/-- C6: when a marker's declared index names no original step (zero, or past
the end of the provided steps), assembly still yields one step per marker and
fills that canonical position with the sentinel placeholder step
(`"Missing step definition."` / `"???"`). -/
theorem c6_sentinel_fallback (s : LogicScenario) (j d : Nat)
    (hd : (templateIds s.codeTemplate).get? j = some d)
    (hmiss : d = 0 ∨ s.steps.length < d) :
    (postProcess s).steps.length = (parseTpl s.codeTemplate).1.length
    ∧ (postProcess s).steps.get? j = some (sentinelStep (j + 1)) := by
  have hne := templateIds_ne_nil _ _ _ hd
  obtain ⟨p, hp, hval⟩ := templateIds_get? _ _ _ hd
  rw [postProcess_steps s hne]
  unfold newStepsOf
  refine ⟨newStepsAux_length s.steps 0 _, ?_⟩
  rw [newStepsAux_get? s.steps 0 _ j p hp, hval, Nat.zero_add]
  rcases hmiss with h0 | hlt
  · rw [h0]
    rfl
  · obtain ⟨d2, rfl⟩ : ∃ d2, d = d2 + 1 := ⟨d - 1, by omega⟩
    simp only [remapStep]
    rw [List.get?_eq_none.mpr (by omega)]

/-- C8: duplicated declared indices do not break assembly: there is still one
step per marker (each occurrence gets the distinct canonical index of its
position), and the declared-to-canonical map binds a duplicated declared
index to the canonical index of its last occurrence in offset order
(last-write-wins). -/
theorem c8_duplicate_indices (s : LogicScenario) (j d : Nat)
    (hd : (templateIds s.codeTemplate).get? j = some d)
    (hlast : ∀ k, j < k → (templateIds s.codeTemplate).get? k ≠ some d) :
    (postProcess s).steps.length = (parseTpl s.codeTemplate).1.length
    ∧ idMapOf (parseTpl s.codeTemplate).1 d = some (j + 1) := by
  have hne := templateIds_ne_nil _ _ _ hd
  obtain ⟨p, hp, hval⟩ := templateIds_get? _ _ _ hd
  constructor
  · rw [postProcess_steps s hne]
    exact newStepsAux_length s.steps 0 _
  · have h9 := idMapAux_last (parseTpl s.codeTemplate).1 0 (fun _ => none) d j p hp hval
      (fun k pk hk hget hvk => by
        refine hlast k hk ?_
        unfold templateIds
        rw [List.get?_map, hget, Option.map_some', hvk])
    simpa using h9

/-- C1 (amended): after assembly the canonical indices in the corrected
template read `1, 2, ..., totalBlanks` left to right with no gaps or
duplicates; there is exactly one assembled step per marker, with the step at
position `i` carrying identifier `step_<i+1>`; and — when the declared
indices are distinct — the declared-to-canonical map used for rewriting
`At Blank N` references sends each declared index to the canonical index of
its marker, the context being rewritten with exactly that map.  Bare
`Blank N` references (without the `At` prefix) are not rewritten, and a
step's references to other blanks' indices are not rewritten — see the
counterexample. -/
theorem c1_assembly_invariant (s : LogicScenario)
    (hne : (parseTpl s.codeTemplate).1 ≠ [])
    (hnodup : (templateIds s.codeTemplate).Nodup) :
    templateIds (postProcess s).codeTemplate
      = List.range' 1 (parseTpl s.codeTemplate).1.length
    ∧ (postProcess s).steps.length = (parseTpl s.codeTemplate).1.length
    ∧ (postProcess s).steps.map Step.id
      = (canonQs 0 (parseTpl s.codeTemplate).1.length).map (fun q => "step_".data ++ q)
    ∧ (∀ j d, (templateIds s.codeTemplate).get? j = some d →
        idMapOf (parseTpl s.codeTemplate).1 d = some (j + 1))
    ∧ (s.context ≠ [] → (postProcess s).context
        = replaceCtx (idMapOf (parseTpl s.codeTemplate).1) s.context) := by
  refine ⟨?_, ?_, ?_, ?_, ?_⟩
  · rw [postProcess_codeTemplate s hne]
    exact templateIds_rebuilt s.codeTemplate
  · rw [postProcess_steps s hne]
    exact newStepsAux_length s.steps 0 _
  · rw [postProcess_steps s hne]
    exact newStepsAux_ids s.steps 0 (parseTpl s.codeTemplate).1
  · intro j d hd
    obtain ⟨p, hp, hval⟩ := templateIds_get? _ _ _ hd
    have hl : ∀ k pk, j < k → (parseTpl s.codeTemplate).1.get? k = some pk →
        digitsVal pk.2.ds ≠ d := by
      intro k pk hk hget hvk
      have hidk : (templateIds s.codeTemplate).get? k = some d := by
        unfold templateIds
        rw [List.get?_map, hget, Option.map_some', hvk]
      obtain ⟨hjlt, _⟩ := List.get?_eq_some.mp hd
      have := List.get?_inj hjlt hnodup (hd.trans hidk.symm)
      omega
    have h9 := idMapAux_last (parseTpl s.codeTemplate).1 0 (fun _ => none) d j p hp hval hl
    simpa using h9
  · intro hc
    rw [postProcess_context s hne, if_neg hc]

/-- A scenario already in fully canonical spelling: markers read
`___BLANK_1___ ... ___BLANK_n___`, one step per marker with canonical ids and
instructions that are fixed points of their own header rewrite, and a context
that is a fixed point of the context rewrite. -/
def scenarioNormal (s : LogicScenario) : Prop :=
  (parseTpl s.codeTemplate).1.map (fun p => p.2.ds)
      = canonQs 0 (parseTpl s.codeTemplate).1.length
  ∧ s.steps.length = (parseTpl s.codeTemplate).1.length
  ∧ stepsNormal 0 s.steps
  ∧ replaceCtx (idMapOf (parseTpl s.codeTemplate).1) s.context = s.context

instance (s : LogicScenario) : Decidable (scenarioNormal s) := by
  unfold scenarioNormal
  infer_instance

/-- C7 (amended): a template without markers passes through unchanged, and a
scenario already in fully canonical spelling (`scenarioNormal`) is a fixed
point of the pipeline.  As claimed, the second run is byte-identical only on
such scenarios: a later run may still normalize the spelling of an
`At Blank N` reference whose number only becomes mapped after renumbering —
see the counterexample. -/
theorem c7_identity (s : LogicScenario) :
    ((parseTpl s.codeTemplate).1 = [] → postProcess s = s)
    ∧ (scenarioNormal s → postProcess s = s) := by
  refine ⟨postProcess_no_blanks s, ?_⟩
  intro hn
  obtain ⟨hds, hlen, hnorm, hctx⟩ := hn
  by_cases hne : (parseTpl s.codeTemplate).1 = []
  · exact postProcess_no_blanks s hne
  · rw [postProcess_eq s hne]
    have htpl : rebuiltOf (parseTpl s.codeTemplate).1 (parseTpl s.codeTemplate).2
        = s.codeTemplate := by
      unfold rebuiltOf
      rw [weave_reOccs_same _ _ 0 _ hds.symm]
      exact parseF_recompose s.codeTemplate.length s.codeTemplate 0
    have hsteps : newStepsOf s.steps (parseTpl s.codeTemplate).1 = s.steps := by
      unfold newStepsOf
      rw [newStepsAux_id_of_normal _ 0 s.steps hds (by omega) hnorm]
      exact List.drop_zero s.steps
    have hctx2 : (if s.context = [] then s.context
        else replaceCtx (idMapOf (parseTpl s.codeTemplate).1) s.context) = s.context := by
      by_cases hc : s.context = []
      · rw [if_pos hc]
      · rw [if_neg hc, hctx]
    rw [htpl, hsteps, hctx2]

/-- C3 (amended): the context rewriter replaces every case-insensitive
occurrence of `At\s+Blank\s+<number>` whose number is a key of the map with
the canonical spelling `At Blank <canonical>`, leaving the text before the
match unchanged and continuing strictly after the match. -/
theorem c3_context_rewriter (m : Nat → Option Nat) (u t ds rest : Str) (c2 : Nat)
    (hu : ∀ k, k < u.length → matchCtxAt (u.drop k ++ t) = none)
    (hmatch : matchCtxAt t = some (ds, rest))
    (hm : m (digitsVal ds) = some c2) :
    replaceCtx m (u ++ t) = u ++ ("At Blank ".data ++ natStr c2) ++ replaceCtx m rest := by
  unfold replaceCtx
  rw [replaceCtx_walk m u t hu, replaceCtxF_start_match m hmatch (le_refl _)]
  rw [hm]
  simp [List.append_assoc]

/-- C4 (amended): for a step relocated from declared index `d` to canonical
index `c`, every case-insensitive `At\s+Blank\s+<d>` span of its instruction
is replaced with the canonical spelling `At Blank <c>`, the text before the
span is unchanged and rewriting continues strictly after the span (characters
outside matched spans never change). -/
theorem c4_instruction_rewrite (d c2 : Nat) (u t rest : Str)
    (hu : ∀ k, k < u.length → matchHdrAt (natStr d) (u.drop k ++ t) = none)
    (hmatch : matchHdrAt (natStr d) t = some rest) :
    replaceHdr d c2 (u ++ t)
      = u ++ ("At Blank ".data ++ natStr c2) ++ replaceHdr d c2 rest := by
  unfold replaceHdr
  rw [replaceHdr_walk d c2 u t hu, replaceHdrF_start_match d c2 hmatch (le_refl _)]
  simp [List.append_assoc]

/-- C9: the context rewrite processes each `At Blank <number>` occurrence
exactly once: when the number is not a key of the map the matched span is
emitted character-for-character unchanged (case and spacing included), and
scanning resumes strictly after the span, so emitted text is never rematched
in the same pass. -/
theorem c9_context_once (m : Nat → Option Nat) (u t ds rest : Str)
    (hu : ∀ k, k < u.length → matchCtxAt (u.drop k ++ t) = none)
    (hmatch : matchCtxAt t = some (ds, rest))
    (hm : m (digitsVal ds) = none) :
    replaceCtx m (u ++ t) = u ++ t.take (t.length - rest.length) ++ replaceCtx m rest := by
  unfold replaceCtx
  rw [replaceCtx_walk m u t hu, replaceCtxF_start_match m hmatch (le_refl _)]
  rw [hm]
  simp [List.append_assoc]

/-! ## Concrete scenarios for counterexamples and witnesses -/

def c1ex : LogicScenario where
  id := []
  title := []
  description := []
  difficulty := []
  environment := []
  context := "Blank 1".data
  codeTemplate := "___BLANK_2___X___BLANK_1___".data
  steps := [{ id := "step_1".data, instruction := "a".data,
              expectedAnswer := "x".data, outputSimulation := [] },
            { id := "step_2".data, instruction := "b".data,
              expectedAnswer := "y".data, outputSimulation := [] }]

/-- C1 counterexample: the declared-to-canonical map sends 1 to 2 (marker
`___BLANK_1___` is physically second), yet the bare `Blank 1` reference in
the context is left untouched, so it no longer names the same canonical index
as the template: the claimed sync of every `Blank N` reference fails. -/
theorem c1_counterexample :
    idMapOf (parseTpl c1ex.codeTemplate).1 1 = some 2
    ∧ (postProcess c1ex).context = "Blank 1".data
    ∧ "Blank 1".data ≠ "Blank 2".data := by decide

def c1wit : LogicScenario where
  id := []
  title := []
  description := []
  difficulty := []
  environment := []
  context := "See At Blank 1.".data
  codeTemplate := "A___BLANK_2___B___BLANK_1___C".data
  steps := [{ id := "step_1".data, instruction := "a".data,
              expectedAnswer := "x".data, outputSimulation := [] },
            { id := "step_2".data, instruction := "b".data,
              expectedAnswer := "y".data, outputSimulation := [] }]

/-- C1 witness: a scrambled two-marker template with distinct declared
indices. -/
theorem c1_assembly_invariant_witness :
    templateIds (postProcess c1wit).codeTemplate = [1, 2]
    ∧ (postProcess c1wit).steps.map Step.id = ["step_1".data, "step_2".data]
    ∧ idMapOf (parseTpl c1wit.codeTemplate).1 2 = some 1 := by
  obtain ⟨h1, h2, h3, h4, h5⟩ := c1_assembly_invariant c1wit (by decide) (by decide)
  exact ⟨h1.trans (by decide), h3.trans (by decide), h4 0 2 (by decide)⟩

def c2wit : LogicScenario where
  id := []
  title := []
  description := []
  difficulty := []
  environment := []
  context := []
  codeTemplate := "A___BLANK_3___B___BLANK_1___C___BLANK_2___D".data
  steps := [{ id := "step_1".data, instruction := "At Blank 1: x".data,
              expectedAnswer := "e1".data, outputSimulation := [] },
            { id := "step_2".data, instruction := "At Blank 2: y".data,
              expectedAnswer := "e2".data, outputSimulation := [] },
            { id := "step_3".data, instruction := "At Blank 3: z".data,
              expectedAnswer := "e3".data, outputSimulation := [] }]

/-- C2 witness: physical declared order 3, 1, 2 — output position 0 holds
the step originally tagged 3, relabeled `step_1` with its header renumbered. -/
theorem c2_step_remapper_witness :
    (postProcess c2wit).steps.length = 3
    ∧ (postProcess c2wit).steps.get? 0
        = some { id := "step_1".data, instruction := "At Blank 1: z".data,
                 expectedAnswer := "e3".data, outputSimulation := [] } := by
  obtain ⟨h1, h2⟩ := c2_step_remapper c2wit 0 3
    { id := "step_3".data, instruction := "At Blank 3: z".data,
      expectedAnswer := "e3".data, outputSimulation := [] }
    (by decide) (by decide) (by decide)
  exact ⟨h1.trans (by decide), h2.trans (by decide)⟩

def c3ex : LogicScenario where
  id := []
  title := []
  description := []
  difficulty := []
  environment := []
  context := "See Blank 1 and Blank 2.".data
  codeTemplate := "A ___BLANK_2___ B ___BLANK_1___ C".data
  steps := [{ id := "step_1".data, instruction := "At Blank 1: first".data,
              expectedAnswer := "x".data, outputSimulation := [] },
            { id := "step_2".data, instruction := "At Blank 2: second".data,
              expectedAnswer := "y".data, outputSimulation := [] }]

/-- C3 counterexample: the source's context pattern requires the `At` prefix
(`/At\s+Blank\s+(\d+)/gi`), so on the spec's own concrete scenario the
context is left unchanged instead of becoming `"See Blank 2 and Blank 1."`. -/
theorem c3_counterexample :
    (postProcess c3ex).context = "See Blank 1 and Blank 2.".data
    ∧ "See Blank 1 and Blank 2.".data ≠ "See Blank 2 and Blank 1.".data := by decide

def c3m : Nat → Option Nat :=
  fun d => if d = 1 then some 2 else if d = 2 then some 1 else none

/-- C3 witness: a mapped `At Blank 1` reference after match-free text is
rewritten to `At Blank 2`. -/
theorem c3_context_rewriter_witness :
    replaceCtx c3m ("See ".data ++ "At Blank 1 and At Blank 2.".data)
      = "See ".data ++ ("At Blank ".data ++ natStr 2)
        ++ replaceCtx c3m " and At Blank 2.".data :=
  c3_context_rewriter c3m "See ".data "At Blank 1 and At Blank 2.".data
    ['1'] " and At Blank 2.".data 2 (by decide) (by decide) (by decide)

def c4ex : LogicScenario where
  id := []
  title := []
  description := []
  difficulty := []
  environment := []
  context := []
  codeTemplate := "___BLANK_2___X___BLANK_1___".data
  steps := [{ id := "step_1".data, instruction := "a".data,
              expectedAnswer := "x".data, outputSimulation := [] },
            { id := "step_2".data, instruction := "Fill Blank 2 now".data,
              expectedAnswer := "y".data, outputSimulation := [] }]

/-- C4 counterexample: the instruction rewrite matches only
`At\s+Blank\s+<d>`; the bare `Blank 2` reference in the step relocated from
declared index 2 to canonical index 1 is left unchanged instead of becoming
`Blank 1`. -/
theorem c4_counterexample :
    ((postProcess c4ex).steps.get? 0).map Step.instruction
      = some "Fill Blank 2 now".data
    ∧ "Fill Blank 2 now".data ≠ "Fill Blank 1 now".data := by decide

/-- C4 witness: an `at  blank 2` span (case-folded, double space) is replaced
by the canonical `At Blank 1` spelling, text before and after unchanged. -/
theorem c4_instruction_rewrite_witness :
    replaceHdr 2 1 ("Fill ".data ++ "at  blank 2 now".data)
      = "Fill ".data ++ ("At Blank ".data ++ natStr 1) ++ replaceHdr 2 1 " now".data :=
  c4_instruction_rewrite 2 1 "Fill ".data "at  blank 2 now".data " now".data
    (by decide) (by decide)

def c6wit : LogicScenario where
  id := []
  title := []
  description := []
  difficulty := []
  environment := []
  context := []
  codeTemplate := "___BLANK_1___X___BLANK_2___Y___BLANK_3___".data
  steps := [{ id := "step_1".data, instruction := "At Blank 1: a".data,
              expectedAnswer := "e1".data, outputSimulation := [] },
            { id := "step_2".data, instruction := "At Blank 2: b".data,
              expectedAnswer := "e2".data, outputSimulation := [] }]

/-- C6 witness: three markers but only two provided steps — the assembled
sequence still has three elements, the missing one the sentinel step. -/
theorem c6_sentinel_fallback_witness :
    (postProcess c6wit).steps.length = 3
    ∧ (postProcess c6wit).steps.get? 2 = some (sentinelStep 3) := by
  obtain ⟨h1, h2⟩ := c6_sentinel_fallback c6wit 2 3 (by decide) (Or.inr (by decide))
  exact ⟨h1.trans (by decide), h2⟩

def c7ex : LogicScenario where
  id := []
  title := []
  description := []
  difficulty := []
  environment := []
  context := "At  Blank 1".data
  codeTemplate := "___BLANK_7___".data
  steps := [{ id := "step_1".data, instruction := "x".data,
              expectedAnswer := "y".data, outputSimulation := [] }]

/-- C7 counterexample: the first pass renumbers the single marker 7 → 1 but
leaves the context's `At  Blank 1` untouched (1 is not a declared index);
the second pass, for which 1 is mapped, normalizes it to `At Blank 1` —
the output of the pipeline is not a fixed point. -/
theorem c7_counterexample : postProcess (postProcess c7ex) ≠ postProcess c7ex := by decide

def c7wit : LogicScenario where
  id := []
  title := []
  description := []
  difficulty := []
  environment := []
  context := "See At Blank 1.".data
  codeTemplate := "X___BLANK_1___Y".data
  steps := [{ id := "step_1".data, instruction := "At Blank 1 do".data,
              expectedAnswer := "e".data, outputSimulation := [] }]

/-- C7 witness: a fully canonical one-marker scenario is a fixed point. -/
theorem c7_identity_witness : scenarioNormal c7wit ∧ postProcess c7wit = c7wit :=
  ⟨by decide, (c7_identity c7wit).2 (by decide)⟩

def c8wit : LogicScenario where
  id := []
  title := []
  description := []
  difficulty := []
  environment := []
  context := []
  codeTemplate := "___BLANK_2___X___BLANK_2___".data
  steps := [{ id := "step_1".data, instruction := "a".data,
              expectedAnswer := "e1".data, outputSimulation := [] },
            { id := "step_2".data, instruction := "b".data,
              expectedAnswer := "e2".data, outputSimulation := [] }]

/-- C8 witness: both markers declare index 2; assembly still yields two
steps, and the map binds 2 to the canonical index of the last occurrence. -/
theorem c8_duplicate_indices_witness :
    (postProcess c8wit).steps.length = 2
    ∧ idMapOf (parseTpl c8wit.codeTemplate).1 2 = some 2 := by
  have hl : ∀ k, 1 < k → (templateIds c8wit.codeTemplate).get? k ≠ some 2 := by
    intro k hk hc
    have hlen : (templateIds c8wit.codeTemplate).length = 2 := by decide
    rw [List.get?_eq_none.mpr (by omega)] at hc
    exact Option.noConfusion hc
  obtain ⟨h1, h2⟩ := c8_duplicate_indices c8wit 1 2 (by decide) hl
  exact ⟨h1.trans (by decide), h2⟩

/-- C9 witness: an unmapped `at  Blank 7` span is preserved character for
character (its spelling included), and rewriting resumes after it. -/
theorem c9_context_once_witness :
    replaceCtx (fun _ => none) ("x ".data ++ "at  Blank 7!".data)
      = "x ".data ++ "at  Blank 7".data ++ replaceCtx (fun _ => none) "!".data :=
  (c9_context_once (fun _ => none) "x ".data "at  Blank 7!".data ['7'] "!".data
    (by decide) (by decide) (by decide)).trans (by decide)

end AiLb
